import Mathlib

/-!
# Verification of the IN4120 ranked-retrieval core

Shallow embedding of the repository's core components and proofs about them:

* `Posting`, `PostingsMerger.intersection` / `union` / `difference`
  (from `src/in3120/postingsmerger.py`): posting sequences are embedded as
  Lean lists consumed by structural recursion, which mirrors the Python
  generators' single forward pass over each iterator.
* `BetterRanker` (from `src/in3120/betterranker.py`): floating-point scores
  are modelled as exact rationals and `math.log` as an abstract function
  parameter, since the properties of interest are about the accumulation
  structure, not about particular logarithm values.
* `N_of` (from `src/in3120/simplesearchengine.py`, line 60): the N-of-M
  threshold formula.  On the specified domain `0 ≤ t ≤ 1` Python's `int`
  truncation coincides with the floor used here.
* `NOfM.run`: the N-of-M frontier/pivot evaluation loop.  The repository's
  `SimpleSearchEngine.evaluate` is an unfinished draft that fails to parse
  (a malformed list comprehension on line 63 of
  `src/in3120/simplesearchengine.py`), so the loop is modelled from the
  specification's canonical algorithm instead; see the doc comments below.
-/

/-- A posting: "document `document_id` contains the term `term_frequency`
times" (from `src/in3120/posting.py`, interface described in the spec's data
model; positional data is not needed by any property proved here). -/
structure Posting where
  document_id : Nat
  term_frequency : Nat
deriving DecidableEq, Repr

/-- The document ids carried by a posting list, in order. -/
def ids (l : List Posting) : List Nat := l.map Posting.document_id

/-- A posting list sorted strictly increasingly by document id — the
invariant the index guarantees for every posting sequence. -/
def SortedPostings (l : List Posting) : Prop :=
  l.Pairwise (fun p q => p.document_id < q.document_id)

instance (l : List Posting) : Decidable (SortedPostings l) := by
  unfold SortedPostings; infer_instance

namespace PostingsMerger

/-- `PostingsMerger.intersection` (lines 18–42 of
`src/in3120/postingsmerger.py`): simple AND of two posting lists, advancing
the iterator with the smaller current document id, and on equal ids yielding
the posting from the first iterator and advancing both. -/
def intersection : List Posting → List Posting → List Posting
  | [], _ => []
  | _ :: _, [] => []
  | a :: as, b :: bs =>
    if a.document_id > b.document_id then intersection (a :: as) bs
    else if a.document_id < b.document_id then intersection as (b :: bs)
    else a :: intersection as bs
termination_by A B => A.length + B.length
decreasing_by all_goals simp_arith

/-- `PostingsMerger.union` (lines 44–75 of `src/in3120/postingsmerger.py`):
simple OR of two posting lists; when one side is exhausted the other is
drained, and on equal ids the posting from the first iterator is yielded. -/
def union : List Posting → List Posting → List Posting
  | [], bs => bs
  | a :: as, [] => a :: as
  | a :: as, b :: bs =>
    if a.document_id > b.document_id then b :: union (a :: as) bs
    else if a.document_id < b.document_id then a :: union as (b :: bs)
    else a :: union as bs
termination_by A B => A.length + B.length
decreasing_by all_goals simp_arith

/-- `PostingsMerger.difference` (lines 77–108 of
`src/in3120/postingsmerger.py`): simple ANDNOT of two posting lists; when B
is exhausted the rest of A is drained, when A is exhausted the loop stops,
and on equal ids both sides advance without emitting. -/
def difference : List Posting → List Posting → List Posting
  | [], _ => []
  | a :: as, [] => a :: as
  | a :: as, b :: bs =>
    if a.document_id > b.document_id then difference (a :: as) bs
    else if a.document_id < b.document_id then a :: difference as (b :: bs)
    else difference as bs
termination_by A B => A.length + B.length
decreasing_by all_goals simp_arith

end PostingsMerger

/-- The threshold computation of `SimpleSearchEngine.evaluate`
(`src/in3120/simplesearchengine.py`, line 60):
`N = max(1, min(M, int(match_threshold * M)))`.  The float
`match_threshold` is modelled as a rational; on the specified domain
`0 ≤ t ≤ 1` the product is nonnegative, so Python's truncating `int`
is the floor, and `Int.toNat` is the identity on the truncated value. -/
def N_of (M : Nat) (t : ℚ) : Nat :=
  max 1 (min M (Int.toNat ⌊t * (M : ℚ)⌋))

/-- Model of the inverted index as consumed by the ranker: per-term document
frequency (`get_document_frequency`). -/
structure InvertedIndexModel where
  document_frequency : String → Nat

/-- Model of the corpus as consumed by the ranker: its size (`len(corpus)`)
and, per document id, the optional value of the document field
`"static_quality_score"` (`None` when the field is missing). -/
structure CorpusModel where
  size : Nat
  static_quality_score : Nat → Option ℚ

/-- The mutable state of `BetterRanker`
(`src/in3120/betterranker.py`): the accumulated score and the document id
set by the last `reset` (`None` before any reset). -/
structure BetterRanker where
  score : ℚ
  document_id : Option Nat
deriving DecidableEq, Repr

namespace BetterRanker

/-- `BetterRanker._dynamic_score_weight` (line 24). -/
def dynamic_score_weight : ℚ := 1

/-- `BetterRanker._static_score_weight` (line 25). -/
def static_score_weight : ℚ := 1

/-- `BetterRanker._static_score_default_value` (line 27). -/
def static_score_default_value : ℚ := 0

/-- `BetterRanker.reset` (lines 35–37). -/
def reset (_r : BetterRanker) (d : Nat) : BetterRanker :=
  { score := 0, document_id := some d }

/-- `BetterRanker.update` (lines 39–46), with `math.log` abstracted as the
function parameter `log` and the float score as a rational.  The Python
`assert` on line 40 raising `AssertionError` is the `Except.error` case. -/
def update (log : ℚ → ℚ) (index : InvertedIndexModel) (corpus : CorpusModel)
    (r : BetterRanker) (term : String) (multiplicity : Nat) (posting : Posting) :
    Except String BetterRanker :=
  if r.document_id = some posting.document_id then
    let df := index.document_frequency term
    let idf : ℚ := if df > 0 then log ((corpus.size : ℚ) / (df : ℚ)) else 0
    let tf : ℚ := log (1 + (posting.term_frequency : ℚ))
    Except.ok { r with score := r.score + tf * idf * (multiplicity : ℚ) }
  else
    Except.error "AssertionError"

/-- `BetterRanker.evaluate` (lines 48–55).  The corpus lookup needs the
document id of the last reset; the Python line
`static_score = self._static_score_default_value if not static_score else static_score`
replaces both a missing field (`None`) and a falsy value (`0.0`) by the
default. -/
def evaluate (corpus : CorpusModel) (r : BetterRanker) : Option ℚ :=
  r.document_id.map (fun d =>
    let looked := corpus.static_quality_score d
    let static_score : ℚ :=
      match looked with
      | none => static_score_default_value
      | some v => if v = 0 then static_score_default_value else v
    dynamic_score_weight * r.score + static_score_weight * static_score)

end BetterRanker

namespace NOfM

/-- A frontier slot: a query-term label paired with the not-yet-consumed
document ids of that term's posting sequence. -/
abbrev Slot := Nat × List Nat

/-- Modelled from the spec: the number of non-empty frontier slots
(spec §4.4 step 3, "while at least N frontier slots are non-empty").
`SimpleSearchEngine.evaluate` in `src/in3120/simplesearchengine.py` is a
non-parsing draft, so the loop is taken from the specification. -/
def activeCount (slots : List Slot) : Nat :=
  slots.countP (fun s => !s.2.isEmpty)

/-- Modelled from the spec: the current heads of the non-empty slots. -/
def heads (slots : List Slot) : List Nat :=
  slots.filterMap (fun s => s.2.head?)

/-- Modelled from the spec: the pivot, i.e. the smallest document id among
the non-empty frontier slots (spec §4.4 step 3a); `none` when every slot is
exhausted. -/
def pivot? (slots : List Slot) : Option Nat :=
  (heads slots).min?

/-- Modelled from the spec: advance every slot currently sitting at the
pivot to its next posting (spec §4.4 steps 3c/3d — both branches advance
exactly the slots at the pivot). -/
def advance (p : Nat) (slots : List Slot) : List Slot :=
  slots.map (fun s => if s.2.head? = some p then (s.1, s.2.tail) else s)

/-- Modelled from the spec: the labels of the slots currently sitting at the
pivot (spec §4.4 step 3b, the `hits` count, and 3c, the slots whose
postings contribute to the score). -/
def hitTerms (p : Nat) (slots : List Slot) : List Nat :=
  (slots.filter (fun s => s.2.head? = some p)).map Prod.fst

/-- The labels of the slots whose full remaining sequence contains `d` —
the reference against which the loop's output is characterised. -/
def termsContaining (d : Nat) (slots : List Slot) : List Nat :=
  (slots.filter (fun s => d ∈ s.2)).map Prod.fst

/-- Total number of postings left in the frontier; an upper bound on the
number of loop iterations, used as fuel. -/
def totalSize (slots : List Slot) : Nat :=
  (slots.map (fun s => s.2.length)).sum

/-- Modelled from the spec: the N-of-M document-at-a-time loop
(spec §4.4 steps 3–4).  Each iteration takes the pivot (the least current
document id), emits `(pivot, contributing term labels)` when at least `N`
slots sit at the pivot, and advances exactly the slots at the pivot; the
loop stops when fewer than `N` slots are non-empty.  The candidate list is
returned; scoring and sieving consume it elementwise. -/
def run (N : Nat) : Nat → List Slot → List (Nat × List Nat)
  | 0, _ => []
  | fuel + 1, slots =>
    if activeCount slots < N then []
    else
      match pivot? slots with
      | none => []
      | some p =>
        (if N ≤ (hitTerms p slots).length then [(p, hitTerms p slots)] else [])
          ++ run N fuel (advance p slots)

/-- The sortedness invariant on a frontier: every slot's remaining document
ids are strictly increasing. -/
def SortedSlots (slots : List Slot) : Prop :=
  ∀ s ∈ slots, s.2.Pairwise (fun a b => a < b)

instance (slots : List Slot) : Decidable (SortedSlots slots) := by
  unfold SortedSlots; infer_instance

/-- The frontier built from one posting list per unique query term, labelled
by position. -/
def mkSlots (Ls : List (List Posting)) : List Slot :=
  Ls.map (fun L => (0, ids L))

end NOfM

/-- Strict AND across all M posting lists, folding
`PostingsMerger.intersection` over them; empty for an empty collection. -/
def foldIntersection : List (List Posting) → List Posting
  | [] => []
  | L :: rest => rest.foldl PostingsMerger.intersection L

/-! ## Basic facts about posting lists -/

theorem ids_cons (a : Posting) (l : List Posting) :
    ids (a :: l) = a.document_id :: ids l := rfl

theorem sortedPostings_cons {a : Posting} {as : List Posting} :
    SortedPostings (a :: as) ↔
      (∀ p ∈ as, a.document_id < p.document_id) ∧ SortedPostings as :=
  List.pairwise_cons

theorem sortedPostings_tail {a : Posting} {as : List Posting}
    (h : SortedPostings (a :: as)) : SortedPostings as :=
  (sortedPostings_cons.mp h).2

theorem head_le_of_mem_sorted {a p : Posting} {as : List Posting}
    (h : SortedPostings (a :: as)) (hp : p ∈ a :: as) :
    a.document_id ≤ p.document_id := by
  rcases List.mem_cons.mp hp with rfl | hp
  · exact le_refl _
  · exact le_of_lt ((sortedPostings_cons.mp h).1 p hp)

theorem not_mem_ids_of_lt_head {b : Posting} {bs : List Posting}
    (hB : SortedPostings (b :: bs)) {x : Nat} (hx : x < b.document_id) :
    x ∉ ids (b :: bs) := by
  intro hmem
  simp only [ids, List.mem_map] at hmem
  obtain ⟨q, hq, rfl⟩ := hmem
  exact absurd (head_le_of_mem_sorted hB hq) (by omega)

/-! ## `PostingsMerger.intersection` as a filter -/

/-- On sorted inputs, the merge-join intersection keeps exactly the postings
of the left list whose document id also occurs in the right list. -/
theorem intersection_eq_filter :
    ∀ (A B : List Posting), SortedPostings A → SortedPostings B →
      PostingsMerger.intersection A B =
        A.filter (fun p => p.document_id ∈ ids B) := by
  intro A
  induction A with
  | nil => intro B _ _; simp [PostingsMerger.intersection]
  | cons a as ihA =>
    intro B
    induction B with
    | nil => intro _ _; simp [PostingsMerger.intersection, ids]
    | cons b bs ihB =>
      intro hA hB
      rw [PostingsMerger.intersection]
      rcases lt_trichotomy a.document_id b.document_id with h | h | h
      · rw [if_neg (by omega), if_pos h]
        have hnot : a.document_id ∉ ids (b :: bs) := not_mem_ids_of_lt_head hB h
        rw [ihA (b :: bs) (sortedPostings_tail hA) hB, List.filter_cons,
          if_neg (by simpa using hnot)]
      · rw [if_neg (by omega), if_neg (by omega)]
        have hmem : a.document_id ∈ ids (b :: bs) := by
          simp [ids_cons, h]
        rw [List.filter_cons, if_pos (by simpa using hmem),
          ihA bs (sortedPostings_tail hA) (sortedPostings_tail hB)]
        congr 1
        apply List.filter_congr
        intro p hp
        have hgt : b.document_id < p.document_id :=
          h ▸ (sortedPostings_cons.mp hA).1 p hp
        apply decide_eq_decide.mpr
        simp only [ids_cons, List.mem_cons]
        constructor
        · intro h2; exact Or.inr h2
        · rintro (h2 | h2)
          · omega
          · exact h2
      · rw [if_pos h]
        rw [ihB hA (sortedPostings_tail hB)]
        apply List.filter_congr
        intro p hp
        have hge : a.document_id ≤ p.document_id := head_le_of_mem_sorted hA hp
        apply decide_eq_decide.mpr
        simp only [ids_cons, List.mem_cons]
        constructor
        · intro h2; exact Or.inr h2
        · rintro (h2 | h2)
          · omega
          · exact h2

/-! ## `PostingsMerger.difference` as a filter -/

/-- On sorted inputs, the merge-join difference keeps exactly the postings
of the left list whose document id does not occur in the right list. -/
theorem difference_eq_filter :
    ∀ (A B : List Posting), SortedPostings A → SortedPostings B →
      PostingsMerger.difference A B =
        A.filter (fun p => p.document_id ∉ ids B) := by
  intro A
  induction A with
  | nil => intro B _ _; simp [PostingsMerger.difference]
  | cons a as ihA =>
    intro B
    induction B with
    | nil => intro _ _; simp [PostingsMerger.difference, ids]
    | cons b bs ihB =>
      intro hA hB
      rw [PostingsMerger.difference]
      rcases lt_trichotomy a.document_id b.document_id with h | h | h
      · rw [if_neg (by omega), if_pos h]
        have hnot : a.document_id ∉ ids (b :: bs) := not_mem_ids_of_lt_head hB h
        rw [List.filter_cons, if_pos (by simpa using hnot),
          ihA (b :: bs) (sortedPostings_tail hA) hB]
      · rw [if_neg (by omega), if_neg (by omega)]
        have hmem : a.document_id ∈ ids (b :: bs) := by
          simp [ids_cons, h]
        rw [List.filter_cons, if_neg (by simpa using hmem),
          ihA bs (sortedPostings_tail hA) (sortedPostings_tail hB)]
        apply List.filter_congr
        intro p hp
        have hgt : b.document_id < p.document_id :=
          h ▸ (sortedPostings_cons.mp hA).1 p hp
        apply decide_eq_decide.mpr
        simp only [ids_cons, List.mem_cons, not_or]
        constructor
        · intro h2; exact ⟨by omega, h2⟩
        · intro h2; exact h2.2
      · rw [if_pos h]
        rw [ihB hA (sortedPostings_tail hB)]
        apply List.filter_congr
        intro p hp
        have hge : a.document_id ≤ p.document_id := head_le_of_mem_sorted hA hp
        apply decide_eq_decide.mpr
        simp only [ids_cons, List.mem_cons, not_or]
        constructor
        · intro h2; exact ⟨by omega, h2⟩
        · intro h2; exact h2.2

/-! ## `PostingsMerger.union`: the left operand is preferred -/

/-- Every posting of the left list is yielded by the union as-is. -/
theorem mem_union_left :
    ∀ (A B : List Posting), ∀ p ∈ A, p ∈ PostingsMerger.union A B := by
  intro A
  induction A with
  | nil => intro B p hp; cases hp
  | cons a as ihA =>
    intro B
    induction B with
    | nil => intro p hp; rw [PostingsMerger.union]; exact hp
    | cons b bs ihB =>
      intro p hp
      rw [PostingsMerger.union]
      split_ifs with h1 h2
      · exact List.mem_cons_of_mem b (ihB p hp)
      · rcases List.mem_cons.mp hp with rfl | hp
        · exact List.mem_cons_self _ _
        · exact List.mem_cons_of_mem a (ihA (b :: bs) p hp)
      · rcases List.mem_cons.mp hp with rfl | hp
        · exact List.mem_cons_self _ _
        · exact List.mem_cons_of_mem a (ihA bs p hp)

/-- Every posting yielded by the union either is a posting of the left list,
or is a posting of the right list whose document id does not occur in the
left list at all.  In particular, on overlapping document ids the union
yields the left operand's posting. -/
theorem union_mem_cases :
    ∀ (A B : List Posting), SortedPostings A → SortedPostings B →
      ∀ p ∈ PostingsMerger.union A B,
        p ∈ A ∨ (p ∈ B ∧ p.document_id ∉ ids A) := by
  intro A
  induction A with
  | nil =>
    intro B _ _ p hp
    rw [PostingsMerger.union] at hp
    exact Or.inr ⟨hp, by simp [ids]⟩
  | cons a as ihA =>
    intro B
    induction B with
    | nil =>
      intro _ _ p hp
      rw [PostingsMerger.union] at hp
      exact Or.inl hp
    | cons b bs ihB =>
      intro hA hB p hp
      rw [PostingsMerger.union] at hp
      split_ifs at hp with h1 h2
      · rcases List.mem_cons.mp hp with rfl | hp
        · exact Or.inr ⟨List.mem_cons_self _ _, not_mem_ids_of_lt_head hA h1⟩
        · rcases ihB hA (sortedPostings_tail hB) p hp with h | ⟨hb, hni⟩
          · exact Or.inl h
          · exact Or.inr ⟨List.mem_cons_of_mem b hb, hni⟩
      · rcases List.mem_cons.mp hp with rfl | hp
        · exact Or.inl (List.mem_cons_self _ _)
        · rcases ihA (b :: bs) (sortedPostings_tail hA) hB p hp with h | ⟨hb, hni⟩
          · exact Or.inl (List.mem_cons_of_mem a h)
          · refine Or.inr ⟨hb, ?_⟩
            have hbp : b.document_id ≤ p.document_id := head_le_of_mem_sorted hB hb
            simp only [ids_cons, List.mem_cons, not_or]
            exact ⟨by omega, hni⟩
      · have heq : a.document_id = b.document_id := by omega
        rcases List.mem_cons.mp hp with rfl | hp
        · exact Or.inl (List.mem_cons_self _ _)
        · rcases ihA bs (sortedPostings_tail hA) (sortedPostings_tail hB) p hp with
            h | ⟨hb, hni⟩
          · exact Or.inl (List.mem_cons_of_mem a h)
          · refine Or.inr ⟨List.mem_cons_of_mem b hb, ?_⟩
            have hbp : b.document_id < p.document_id :=
              (sortedPostings_cons.mp hB).1 p hb
            simp only [ids_cons, List.mem_cons, not_or]
            exact ⟨by omega, hni⟩

/-! ## Sorted sublists -/

/-- A strictly sorted list whose members all occur in another strictly
sorted list is a sublist of it. -/
theorem sorted_subset_sublist :
    ∀ (l' l : List Nat), l.Pairwise (· < ·) → l'.Pairwise (· < ·) →
      (∀ x ∈ l', x ∈ l) → l'.Sublist l := by
  intro l' l
  induction l generalizing l' with
  | nil =>
    intro _ _ hsub
    cases l' with
    | nil => exact List.Sublist.refl []
    | cons x xs => exact absurd (hsub x (by simp)) (by simp)
  | cons b bs ih =>
    intro hl hl' hsub
    cases l' with
    | nil => exact List.nil_sublist _
    | cons a as =>
      by_cases hab : a = b
      · subst hab
        refine List.Sublist.cons₂ a (ih as (hl.of_cons) (hl'.of_cons) ?_)
        intro x hx
        have hax : a < x := (List.pairwise_cons.mp hl').1 x hx
        rcases List.mem_cons.mp (hsub x (List.mem_cons_of_mem a hx)) with rfl | h
        · omega
        · exact h
      · have habs : a ∈ bs := by
          rcases List.mem_cons.mp (hsub a (List.mem_cons_self a as)) with rfl | h
          · exact absurd rfl hab
          · exact h
        have hba : b < a := (List.pairwise_cons.mp hl).1 a habs
        refine List.Sublist.cons b (ih (a :: as) (hl.of_cons) hl' ?_)
        intro x hx
        have hax : a ≤ x := by
          rcases List.mem_cons.mp hx with rfl | h
          · exact le_refl _
          · exact le_of_lt ((List.pairwise_cons.mp hl').1 x h)
        rcases List.mem_cons.mp (hsub x hx) with rfl | h
        · omega
        · exact h

/-! ## Derived facts shared by the merge theorems -/

theorem mem_ids_filter (A : List Posting) (q : Posting → Bool) (d : Nat) :
    d ∈ ids (A.filter q) ↔ ∃ p ∈ A, q p ∧ p.document_id = d := by
  simp [ids, List.mem_map, List.mem_filter, and_assoc]

theorem sortedPostings_filter {l : List Posting} (q : Posting → Bool)
    (h : SortedPostings l) : SortedPostings (l.filter q) :=
  List.Pairwise.filter q h

theorem ids_pairwise {l : List Posting} (h : SortedPostings l) :
    (ids l).Pairwise (· < ·) :=
  List.Pairwise.map Posting.document_id (fun _ _ hab => hab) h

theorem intersection_sorted {A B : List Posting}
    (hA : SortedPostings A) (hB : SortedPostings B) :
    SortedPostings (PostingsMerger.intersection A B) := by
  rw [intersection_eq_filter A B hA hB]
  exact sortedPostings_filter _ hA

theorem mem_ids_intersection {A B : List Posting}
    (hA : SortedPostings A) (hB : SortedPostings B) (d : Nat) :
    d ∈ ids (PostingsMerger.intersection A B) ↔ d ∈ ids A ∧ d ∈ ids B := by
  rw [intersection_eq_filter A B hA hB, mem_ids_filter]
  constructor
  · rintro ⟨p, hpA, hpB, rfl⟩
    exact ⟨List.mem_map_of_mem Posting.document_id hpA, by simpa using hpB⟩
  · rintro ⟨hdA, hdB⟩
    obtain ⟨p, hpA, rfl⟩ := List.mem_map.mp hdA
    exact ⟨p, hpA, by simpa using hdB, rfl⟩

/-! ## Facts about the N-of-M frontier loop -/

theorem head_le_of_sorted_nat {l : List Nat} (h : l.Pairwise (· < ·)) {x d : Nat}
    (hx : l.head? = some x) (hd : d ∈ l) : x ≤ d := by
  cases l with
  | nil => cases hx
  | cons y ys =>
    simp only [List.head?_cons, Option.some.injEq] at hx
    subst hx
    rcases List.mem_cons.mp hd with rfl | hmem
    · exact le_refl _
    · exact le_of_lt ((List.pairwise_cons.mp h).1 d hmem)

theorem head?_mem_self {l : List Nat} {x : Nat} (hx : l.head? = some x) : x ∈ l := by
  cases l with
  | nil => cases hx
  | cons y ys =>
    simp only [List.head?_cons, Option.some.injEq] at hx
    subst hx
    exact List.mem_cons_self _ _

theorem mem_head?_of_sorted_min {l : List Nat} (h : l.Pairwise (· < ·)) {p : Nat}
    (hmin : ∀ x ∈ l, p ≤ x) (hp : p ∈ l) : l.head? = some p := by
  cases l with
  | nil => cases hp
  | cons y ys =>
    have hyp : y = p := by
      rcases List.mem_cons.mp hp with rfl | hmem
      · rfl
      · have h1 := (List.pairwise_cons.mp h).1 p hmem
        have h2 := hmin y (List.mem_cons_self y ys)
        omega
    simp [hyp]

theorem mem_heads_iff {slots : List NOfM.Slot} {x : Nat} :
    x ∈ NOfM.heads slots ↔ ∃ s ∈ slots, s.2.head? = some x := by
  simp [NOfM.heads, List.mem_filterMap]

theorem pivot?_spec {slots : List NOfM.Slot} {p : Nat}
    (hp : NOfM.pivot? slots = some p) :
    (∃ s ∈ slots, s.2.head? = some p) ∧
      ∀ s ∈ slots, ∀ x, s.2.head? = some x → p ≤ x := by
  have h := List.min?_eq_some_iff'.mp hp
  refine ⟨mem_heads_iff.mp h.1, ?_⟩
  intro s hsmem x hx
  exact h.2 x (mem_heads_iff.mpr ⟨s, hsmem, hx⟩)

theorem pivot_min {slots : List NOfM.Slot} {p : Nat}
    (hs : NOfM.SortedSlots slots) (hp : NOfM.pivot? slots = some p) :
    ∀ s ∈ slots, ∀ d ∈ s.2, p ≤ d := by
  intro s hsmem d hd
  cases e : s.2.head? with
  | none =>
    rw [List.head?_eq_none_iff] at e
    rw [e] at hd
    cases hd
  | some y =>
    exact le_trans ((pivot?_spec hp).2 s hsmem y e)
      (head_le_of_sorted_nat (hs s hsmem) e hd)

theorem contains_iff_head {slots : List NOfM.Slot} {p : Nat}
    (hs : NOfM.SortedSlots slots) (hp : NOfM.pivot? slots = some p) :
    ∀ s ∈ slots, (s.2.head? = some p ↔ p ∈ s.2) := by
  intro s hsmem
  constructor
  · exact head?_mem_self
  · exact mem_head?_of_sorted_min (hs s hsmem)
      (fun x hx => pivot_min hs hp s hsmem x hx)

theorem hitTerms_eq_termsContaining {slots : List NOfM.Slot} {p : Nat}
    (hs : NOfM.SortedSlots slots) (hp : NOfM.pivot? slots = some p) :
    NOfM.hitTerms p slots = NOfM.termsContaining p slots := by
  unfold NOfM.hitTerms NOfM.termsContaining
  congr 1
  apply List.filter_congr
  intro s hsmem
  exact decide_eq_decide.mpr (contains_iff_head hs hp s hsmem)

theorem termsContaining_cons (d : Nat) (s : NOfM.Slot) (ss : List NOfM.Slot) :
    NOfM.termsContaining d (s :: ss) =
      if d ∈ s.2 then s.1 :: NOfM.termsContaining d ss
      else NOfM.termsContaining d ss := by
  unfold NOfM.termsContaining
  rw [List.filter_cons]
  by_cases hd : d ∈ s.2
  · rw [if_pos (by simpa using hd), if_pos hd]
    rfl
  · rw [if_neg (by simpa using hd), if_neg hd]

theorem termsContaining_map (d : Nat) (f : NOfM.Slot → NOfM.Slot) :
    ∀ (slots : List NOfM.Slot),
      (∀ s ∈ slots, (f s).1 = s.1) →
      (∀ s ∈ slots, (d ∈ (f s).2 ↔ d ∈ s.2)) →
      NOfM.termsContaining d (slots.map f) = NOfM.termsContaining d slots := by
  intro slots
  induction slots with
  | nil => intro _ _; rfl
  | cons s ss ih =>
    intro h1 h2
    rw [List.map_cons, termsContaining_cons, termsContaining_cons]
    have ih' := ih (fun x hx => h1 x (List.mem_cons_of_mem s hx))
      (fun x hx => h2 x (List.mem_cons_of_mem s hx))
    by_cases hd : d ∈ s.2
    · rw [if_pos ((h2 s (List.mem_cons_self s ss)).mpr hd), if_pos hd,
        h1 s (List.mem_cons_self s ss), ih']
    · rw [if_neg (fun c => hd ((h2 s (List.mem_cons_self s ss)).mp c)),
        if_neg hd, ih']

theorem termsContaining_advance_ne (d p : Nat) (hdp : d ≠ p)
    (slots : List NOfM.Slot) :
    NOfM.termsContaining d (NOfM.advance p slots) =
      NOfM.termsContaining d slots := by
  unfold NOfM.advance
  apply termsContaining_map
  · intro s _
    split <;> rfl
  · intro s _
    by_cases h : s.2.head? = some p
    · rw [if_pos h]
      cases e : s.2 with
      | nil => rw [e] at h; cases h
      | cons y ys =>
        rw [e] at h
        simp only [List.head?_cons, Option.some.injEq] at h
        subst h
        simp [List.mem_cons, hdp]
    · rw [if_neg h]

theorem termsContaining_advance_self (p : Nat) (slots : List NOfM.Slot)
    (hs : NOfM.SortedSlots slots)
    (hmin : ∀ s ∈ slots, ∀ x ∈ s.2, p ≤ x) :
    NOfM.termsContaining p (NOfM.advance p slots) = [] := by
  unfold NOfM.termsContaining
  rw [List.map_eq_nil_iff, List.filter_eq_nil_iff]
  intro s' hs'
  unfold NOfM.advance at hs'
  obtain ⟨s, hsmem, rfl⟩ := List.mem_map.mp hs'
  by_cases h : s.2.head? = some p
  · rw [if_pos h]
    cases e : s.2 with
    | nil => rw [e] at h; cases h
    | cons y ys =>
      rw [e] at h
      simp only [List.head?_cons, Option.some.injEq] at h
      subst h
      have hpw := hs s hsmem
      rw [e] at hpw
      simp only [List.tail_cons, decide_eq_true_eq]
      intro hmem
      exact absurd ((List.pairwise_cons.mp hpw).1 y hmem) (lt_irrefl y)
  · rw [if_neg h]
    simp only [decide_eq_true_eq]
    intro hmem
    exact h (mem_head?_of_sorted_min (hs s hsmem) (hmin s hsmem) hmem)

theorem totalSize_nil : NOfM.totalSize [] = 0 := rfl

theorem totalSize_cons (s : NOfM.Slot) (ss : List NOfM.Slot) :
    NOfM.totalSize (s :: ss) = s.2.length + NOfM.totalSize ss := by
  simp [NOfM.totalSize]

theorem len_tail_le (l : List Nat) : l.tail.length ≤ l.length := by
  rw [List.length_tail]; omega

theorem len_tail_lt (l : List Nat) (h : l ≠ []) : l.tail.length < l.length := by
  have := List.length_pos.mpr h
  rw [List.length_tail]; omega

theorem totalSize_advance_le (p : Nat) :
    ∀ slots : List NOfM.Slot,
      NOfM.totalSize (NOfM.advance p slots) ≤ NOfM.totalSize slots := by
  intro slots
  induction slots with
  | nil => exact le_refl _
  | cons s ss ih =>
    have hstep : NOfM.advance p (s :: ss) =
        (if s.2.head? = some p then (s.1, s.2.tail) else s) :: NOfM.advance p ss :=
      rfl
    rw [hstep, totalSize_cons, totalSize_cons]
    have hlen : (if s.2.head? = some p then (s.1, s.2.tail) else s).2.length ≤
        s.2.length := by
      split
      · exact len_tail_le s.2
      · exact le_refl _
    omega

theorem totalSize_advance_lt (p : Nat) :
    ∀ slots : List NOfM.Slot, (∃ s ∈ slots, s.2.head? = some p) →
      NOfM.totalSize (NOfM.advance p slots) < NOfM.totalSize slots := by
  intro slots
  induction slots with
  | nil => rintro ⟨s, hs, _⟩; cases hs
  | cons s ss ih =>
    rintro ⟨s0, hs0, hhead⟩
    have hstep : NOfM.advance p (s :: ss) =
        (if s.2.head? = some p then (s.1, s.2.tail) else s) :: NOfM.advance p ss :=
      rfl
    rw [hstep, totalSize_cons, totalSize_cons]
    rcases List.mem_cons.mp hs0 with rfl | hmem
    · rw [if_pos hhead]
      have hne : s0.2 ≠ [] := by
        intro e; rw [e] at hhead; cases hhead
      have hlt : s0.2.tail.length < s0.2.length := len_tail_lt s0.2 hne
      have hrest := totalSize_advance_le p ss
      show s0.2.tail.length + NOfM.totalSize (NOfM.advance p ss) <
        s0.2.length + NOfM.totalSize ss
      omega
    · have := ih ⟨s0, hmem, hhead⟩
      have hlen : (if s.2.head? = some p then (s.1, s.2.tail) else s).2.length ≤
          s.2.length := by
        split
        · exact len_tail_le s.2
        · exact le_refl _
      omega

theorem sortedSlots_advance (p : Nat) (slots : List NOfM.Slot)
    (hs : NOfM.SortedSlots slots) : NOfM.SortedSlots (NOfM.advance p slots) := by
  intro s' hs'
  unfold NOfM.advance at hs'
  obtain ⟨s, hsmem, rfl⟩ := List.mem_map.mp hs'
  split
  · cases e : s.2 with
    | nil => simp
    | cons y ys =>
      have hpw := hs s hsmem
      rw [e] at hpw
      simpa using hpw.of_cons
  · exact hs s hsmem

theorem advance_elements_gt (p : Nat) (slots : List NOfM.Slot)
    (hs : NOfM.SortedSlots slots)
    (hmin : ∀ s ∈ slots, ∀ x ∈ s.2, p ≤ x) :
    ∀ s' ∈ NOfM.advance p slots, ∀ d ∈ s'.2, p < d := by
  intro s' hs' d hd
  unfold NOfM.advance at hs'
  obtain ⟨s, hsmem, rfl⟩ := List.mem_map.mp hs'
  by_cases h : s.2.head? = some p
  · rw [if_pos h] at hd
    cases e : s.2 with
    | nil => rw [e] at h; cases h
    | cons y ys =>
      rw [e] at h
      simp only [List.head?_cons, Option.some.injEq] at h
      subst h
      have hpw := hs s hsmem
      rw [e] at hpw
      rw [e] at hd
      simp only [List.tail_cons] at hd
      exact (List.pairwise_cons.mp hpw).1 d hd
  · rw [if_neg h] at hd
    have hle := hmin s hsmem d hd
    rcases lt_or_eq_of_le hle with hlt | heq
    · exact hlt
    · exact absurd
        (mem_head?_of_sorted_min (hs s hsmem) (hmin s hsmem) (heq ▸ hd)) h

theorem termsContaining_length_le_active (d : Nat) (slots : List NOfM.Slot) :
    (NOfM.termsContaining d slots).length ≤ NOfM.activeCount slots := by
  unfold NOfM.termsContaining NOfM.activeCount
  rw [List.length_map, ← List.countP_eq_length_filter]
  apply List.countP_mono_left
  intro s _ hmem
  simp only [decide_eq_true_eq] at hmem
  simp only [Bool.not_eq_true']
  rw [List.isEmpty_eq_false_iff_exists_mem]
  exact ⟨d, hmem⟩

theorem totalSize_eq_zero {slots : List NOfM.Slot}
    (h : NOfM.totalSize slots = 0) : ∀ s ∈ slots, s.2 = [] := by
  intro s hsmem
  unfold NOfM.totalSize at h
  rw [List.sum_eq_zero_iff] at h
  have := h s.2.length (List.mem_map_of_mem (fun s => s.2.length) hsmem)
  exact List.length_eq_zero.mp this

theorem termsContaining_nil_of_empty {slots : List NOfM.Slot} (d : Nat)
    (h : ∀ s ∈ slots, s.2 = []) : NOfM.termsContaining d slots = [] := by
  unfold NOfM.termsContaining
  rw [List.map_eq_nil_iff, List.filter_eq_nil_iff]
  intro s hsmem
  rw [h s hsmem]
  simp

theorem activeCount_eq_zero_of_empty {slots : List NOfM.Slot}
    (h : ∀ s ∈ slots, s.2 = []) : NOfM.activeCount slots = 0 := by
  unfold NOfM.activeCount
  rw [List.countP_eq_zero]
  intro s hsmem
  rw [h s hsmem]
  simp

theorem pivot?_none_empty {slots : List NOfM.Slot}
    (h : NOfM.pivot? slots = none) : ∀ s ∈ slots, s.2 = [] := by
  intro s hsmem
  unfold NOfM.pivot? at h
  rw [List.min?_eq_none_iff] at h
  unfold NOfM.heads at h
  rw [List.filterMap_eq_nil_iff] at h
  exact List.head?_eq_none_iff.mp (h s hsmem)

/-- Exactness of the N-of-M loop: given enough fuel, sorted slots and a
positive threshold, the loop emits `(d, hits)` precisely when at least `N`
slots contain `d`, and `hits` lists exactly the labels of the slots whose
sequence contains `d`. -/
theorem run_char :
    ∀ (fuel N : Nat) (slots : List NOfM.Slot), 1 ≤ N →
      NOfM.SortedSlots slots → NOfM.totalSize slots ≤ fuel →
      ∀ (d : Nat) (hits : List Nat),
        ((d, hits) ∈ NOfM.run N fuel slots ↔
          (N ≤ (NOfM.termsContaining d slots).length ∧
            hits = NOfM.termsContaining d slots)) := by
  intro fuel
  induction fuel with
  | zero =>
    intro N slots hN hs hf d hits
    have hempty : ∀ s ∈ slots, s.2 = [] := totalSize_eq_zero (Nat.le_zero.mp hf)
    have htc := termsContaining_nil_of_empty d hempty
    rw [htc]
    simp only [NOfM.run, List.not_mem_nil, false_iff, List.length_nil]
    rintro ⟨h1, _⟩
    omega
  | succ fuel ih =>
    intro N slots hN hs hf d hits
    rw [NOfM.run]
    by_cases hact : NOfM.activeCount slots < N
    · rw [if_pos hact]
      have hle := termsContaining_length_le_active d slots
      simp only [List.not_mem_nil, false_iff]
      rintro ⟨h1, _⟩
      omega
    · rw [if_neg hact]
      cases hpiv : NOfM.pivot? slots with
      | none =>
        exfalso
        have hzero := activeCount_eq_zero_of_empty (pivot?_none_empty hpiv)
        omega
      | some p =>
        have hmin : ∀ s ∈ slots, ∀ x ∈ s.2, p ≤ x := pivot_min hs hpiv
        have hs' := sortedSlots_advance p slots hs
        have hlt : NOfM.totalSize (NOfM.advance p slots) < NOfM.totalSize slots :=
          totalSize_advance_lt p slots (pivot?_spec hpiv).1
        have hf' : NOfM.totalSize (NOfM.advance p slots) ≤ fuel := by omega
        have IH := ih N (NOfM.advance p slots) hN hs' hf'
        have hht := hitTerms_eq_termsContaining hs hpiv
        rw [List.mem_append]
        by_cases hdp : d = p
        · subst hdp
          have hrest : (d, hits) ∉ NOfM.run N fuel (NOfM.advance d slots) := by
            rw [IH d hits, termsContaining_advance_self d slots hs hmin]
            rintro ⟨h1, _⟩
            simp only [List.length_nil] at h1
            omega
          constructor
          · rintro (hemit | hrest')
            · rw [hht] at hemit
              by_cases hNle : N ≤ (NOfM.termsContaining d slots).length
              · rw [if_pos hNle] at hemit
                simp only [List.mem_singleton, Prod.mk.injEq] at hemit
                exact ⟨hNle, hemit.2⟩
              · rw [if_neg hNle] at hemit
                cases hemit
            · exact absurd hrest' hrest
          · rintro ⟨h1, rfl⟩
            left
            rw [hht, if_pos h1]
            exact List.mem_singleton.mpr rfl
        · constructor
          · rintro (hemit | hrest')
            · exfalso
              apply hdp
              by_cases hNle : N ≤ (NOfM.hitTerms p slots).length
              · rw [if_pos hNle] at hemit
                simp only [List.mem_singleton, Prod.mk.injEq] at hemit
                exact hemit.1
              · rw [if_neg hNle] at hemit
                cases hemit
            · rw [IH d hits, termsContaining_advance_ne d p hdp slots] at hrest'
              exact hrest'
          · rintro ⟨h1, rfl⟩
            right
            rw [IH, termsContaining_advance_ne d p hdp slots]
            exact ⟨h1, rfl⟩

/-- Every emitted document id is present in some slot's sequence. -/
theorem run_mem_source :
    ∀ (fuel N : Nat) (slots : List NOfM.Slot) (d : Nat) (hits : List Nat),
      (d, hits) ∈ NOfM.run N fuel slots → ∃ s ∈ slots, d ∈ s.2 := by
  intro fuel
  induction fuel with
  | zero =>
    intro N slots d hits h
    simp only [NOfM.run, List.not_mem_nil] at h
  | succ fuel ih =>
    intro N slots d hits h
    rw [NOfM.run] at h
    by_cases hact : NOfM.activeCount slots < N
    · rw [if_pos hact] at h
      cases h
    · rw [if_neg hact] at h
      cases hpiv : NOfM.pivot? slots with
      | none => rw [hpiv] at h; cases h
      | some p =>
        rw [hpiv] at h
        rw [List.mem_append] at h
        rcases h with hemit | hrest
        · have hdp : d = p := by
            by_cases hNle : N ≤ (NOfM.hitTerms p slots).length
            · rw [if_pos hNle] at hemit
              simp only [List.mem_singleton, Prod.mk.injEq] at hemit
              exact hemit.1
            · rw [if_neg hNle] at hemit
              cases hemit
          subst hdp
          obtain ⟨s, hsmem, hhead⟩ := (pivot?_spec hpiv).1
          exact ⟨s, hsmem, head?_mem_self hhead⟩
        · obtain ⟨s', hs'mem, hds'⟩ := ih N (NOfM.advance p slots) d hits hrest
          unfold NOfM.advance at hs'mem
          obtain ⟨s, hsmem, rfl⟩ := List.mem_map.mp hs'mem
          refine ⟨s, hsmem, ?_⟩
          by_cases hh : s.2.head? = some p
          · rw [if_pos hh] at hds'
            exact List.mem_of_mem_tail hds'
          · rw [if_neg hh] at hds'
            exact hds'

/-- The emitted document ids are strictly increasing (hence no document is
ever emitted twice). -/
theorem run_fst_pairwise :
    ∀ (fuel N : Nat) (slots : List NOfM.Slot), NOfM.SortedSlots slots →
      ((NOfM.run N fuel slots).map Prod.fst).Pairwise (· < ·) := by
  intro fuel
  induction fuel with
  | zero => intro N slots _; simp [NOfM.run]
  | succ fuel ih =>
    intro N slots hs
    rw [NOfM.run]
    by_cases hact : NOfM.activeCount slots < N
    · rw [if_pos hact]; simp
    · rw [if_neg hact]
      cases hpiv : NOfM.pivot? slots with
      | none => simp
      | some p =>
        have hmin : ∀ s ∈ slots, ∀ x ∈ s.2, p ≤ x := pivot_min hs hpiv
        rw [List.map_append, List.pairwise_append]
        refine ⟨?_, ih N _ (sortedSlots_advance p slots hs), ?_⟩
        · by_cases hNle : N ≤ (NOfM.hitTerms p slots).length
          · rw [if_pos hNle]; simp
          · rw [if_neg hNle]; simp
        · intro a ha b hb
          have hap : a = p := by
            by_cases hNle : N ≤ (NOfM.hitTerms p slots).length
            · rw [if_pos hNle] at ha
              simpa using ha
            · rw [if_neg hNle] at ha
              simp at ha
          subst hap
          obtain ⟨⟨b', hits⟩, hbmem, rfl⟩ := List.mem_map.mp hb
          obtain ⟨s', hs'mem, hbs'⟩ :=
            run_mem_source fuel N (NOfM.advance a slots) b' hits hbmem
          exact advance_elements_gt a slots hs hmin s' hs'mem b' hbs'

/-- Membership of a document id in the loop's output, characterised by the
number of slots containing it. -/
theorem run_fst_mem (fuel N : Nat) (slots : List NOfM.Slot) (hN : 1 ≤ N)
    (hs : NOfM.SortedSlots slots) (hf : NOfM.totalSize slots ≤ fuel) (d : Nat) :
    d ∈ (NOfM.run N fuel slots).map Prod.fst ↔
      N ≤ (NOfM.termsContaining d slots).length := by
  rw [List.mem_map]
  constructor
  · rintro ⟨⟨d', hits⟩, hmem, rfl⟩
    exact ((run_char fuel N slots hN hs hf d' hits).mp hmem).1
  · intro h
    exact ⟨(d, NOfM.termsContaining d slots),
      (run_char fuel N slots hN hs hf d _).mpr ⟨h, rfl⟩, rfl⟩

/-- The loop never emits anything when every slot is empty from the start. -/
theorem run_eq_nil_of_empty (N fuel : Nat) (slots : List NOfM.Slot)
    (hN : 1 ≤ N) (hemp : ∀ s ∈ slots, s.2 = []) :
    NOfM.run N fuel slots = [] := by
  cases fuel with
  | zero => rfl
  | succ fuel =>
    rw [NOfM.run, if_pos]
    rw [activeCount_eq_zero_of_empty hemp]
    omega

/-! ## Facts about the threshold formula -/

theorem N_of_pos (M : Nat) (t : ℚ) : 1 ≤ N_of M t :=
  le_max_left 1 _

theorem N_of_le {M : Nat} (t : ℚ) (hM : 1 ≤ M) : N_of M t ≤ M :=
  max_le hM (min_le_left M _)

theorem N_of_mono (M : Nat) {t1 t2 : ℚ} (h : t1 ≤ t2) :
    N_of M t1 ≤ N_of M t2 := by
  have h1 : ⌊t1 * (M : ℚ)⌋ ≤ ⌊t2 * (M : ℚ)⌋ :=
    Int.floor_le_floor (mul_le_mul_of_nonneg_right h (Nat.cast_nonneg M))
  exact max_le_max (le_refl 1) (min_le_min (le_refl M) (Int.toNat_le_toNat h1))

/-! ## Folding the intersection across several posting lists -/

theorem foldl_intersection_sorted :
    ∀ (rest : List (List Posting)) (L : List Posting), SortedPostings L →
      (∀ X ∈ rest, SortedPostings X) →
      SortedPostings (rest.foldl PostingsMerger.intersection L) := by
  intro rest
  induction rest with
  | nil => intro L hL _; exact hL
  | cons X rest ih =>
    intro L hL hrest
    rw [List.foldl_cons]
    exact ih (PostingsMerger.intersection L X)
      (intersection_sorted hL (hrest X (List.mem_cons_self X rest)))
      (fun Y hY => hrest Y (List.mem_cons_of_mem X hY))

theorem mem_ids_foldl_intersection :
    ∀ (rest : List (List Posting)) (L : List Posting), SortedPostings L →
      (∀ X ∈ rest, SortedPostings X) → ∀ d : Nat,
      (d ∈ ids (rest.foldl PostingsMerger.intersection L) ↔
        d ∈ ids L ∧ ∀ X ∈ rest, d ∈ ids X) := by
  intro rest
  induction rest with
  | nil => intro L _ _ d; simp
  | cons X rest ih =>
    intro L hL hrest d
    have hX := hrest X (List.mem_cons_self X rest)
    have hrest' := fun Y hY => hrest Y (List.mem_cons_of_mem X hY)
    rw [List.foldl_cons, ih _ (intersection_sorted hL hX) hrest' d,
      mem_ids_intersection hL hX, List.forall_mem_cons]
    tauto

/-! ## The frontier built from posting lists -/

theorem sortedSlots_mkSlots (Ls : List (List Posting))
    (hs : ∀ L ∈ Ls, SortedPostings L) :
    NOfM.SortedSlots (NOfM.mkSlots Ls) := by
  intro s hsmem
  unfold NOfM.mkSlots at hsmem
  obtain ⟨L, hL, rfl⟩ := List.mem_map.mp hsmem
  exact ids_pairwise (hs L hL)

theorem termsContaining_mkSlots_length (Ls : List (List Posting)) (d : Nat) :
    (NOfM.termsContaining d (NOfM.mkSlots Ls)).length =
      Ls.countP (fun L => decide (d ∈ ids L)) := by
  unfold NOfM.termsContaining NOfM.mkSlots
  rw [List.length_map, ← List.countP_eq_length_filter, List.countP_map]
  rfl

theorem mkSlots_length (Ls : List (List Posting)) :
    (NOfM.mkSlots Ls).length = Ls.length := by
  unfold NOfM.mkSlots
  exact List.length_map Ls _

/-! ## The claims -/

/-- Claim C1 (supporting theorem; `SimpleSearchEngine.evaluate` itself is a
non-parsing draft, so the property is proved of the loop modelled from the
specification's canonical N-of-M algorithm): with sorted posting sequences,
enough fuel and threshold `N ≥ 1`, the loop emits a candidate `(d, hits)`
exactly when at least `N` of the slots contain `d`, with `hits` being
exactly the labels of the query-term slots whose posting sequence carries
document id `d`; and no document id is ever emitted twice. -/
theorem c1_nOfM_exactness (slots : List NOfM.Slot) (N fuel d : Nat)
    (hits : List Nat) (hN : 1 ≤ N) (hs : NOfM.SortedSlots slots)
    (hf : NOfM.totalSize slots ≤ fuel) :
    ((d, hits) ∈ NOfM.run N fuel slots ↔
      (N ≤ (NOfM.termsContaining d slots).length ∧
        hits = NOfM.termsContaining d slots))
    ∧ ((NOfM.run N fuel slots).map Prod.fst).Nodup := by
  refine ⟨run_char fuel N slots hN hs hf d hits, ?_⟩
  exact (run_fst_pairwise fuel N slots hs).imp (fun h => Nat.ne_of_lt h)

/-- Witness for C1: a concrete two-term frontier, threshold 2-of-2;
document 3 occurs in both slots and is emitted with both term labels. -/
theorem c1_witness :
    (1 ≤ 2 ∧ NOfM.SortedSlots [(10, [1, 3]), (20, [2, 3])] ∧
      NOfM.totalSize [(10, [1, 3]), (20, [2, 3])] ≤ 4) ∧
    (((3, [10, 20]) ∈ NOfM.run 2 4 [(10, [1, 3]), (20, [2, 3])] ↔
      (2 ≤ (NOfM.termsContaining 3 [(10, [1, 3]), (20, [2, 3])]).length ∧
        [10, 20] = NOfM.termsContaining 3 [(10, [1, 3]), (20, [2, 3])]))
      ∧ ((NOfM.run 2 4 [(10, [1, 3]), (20, [2, 3])]).map Prod.fst).Nodup) :=
  ⟨⟨by decide, by decide, by decide⟩,
    c1_nOfM_exactness [(10, [1, 3]), (20, [2, 3])] 2 4 3 [10, 20]
      (by decide) (by decide) (by decide)⟩

/-- Claim C2 (supporting theorem; `SimpleSearchEngine.evaluate` itself is a
non-parsing draft, so the property is proved of the spec-modelled loop):
with threshold `N = M`, a document id is matched by the N-of-M loop exactly
when it survives folding `PostingsMerger.intersection` across all `M`
per-term posting lists. -/
theorem c2_equiv_fold_intersection (Ls : List (List Posting)) (fuel d : Nat)
    (hne : Ls ≠ []) (hs : ∀ L ∈ Ls, SortedPostings L)
    (hf : NOfM.totalSize (NOfM.mkSlots Ls) ≤ fuel) :
    (d ∈ (NOfM.run Ls.length fuel (NOfM.mkSlots Ls)).map Prod.fst ↔
      d ∈ ids (foldIntersection Ls)) := by
  have hN : 1 ≤ Ls.length := by
    cases Ls with
    | nil => exact absurd rfl hne
    | cons L rest => simp
  rw [run_fst_mem fuel Ls.length (NOfM.mkSlots Ls) hN
    (sortedSlots_mkSlots Ls hs) hf d, termsContaining_mkSlots_length]
  cases Ls with
  | nil => exact absurd rfl hne
  | cons L rest =>
    have hfold : foldIntersection (L :: rest) =
        rest.foldl PostingsMerger.intersection L := rfl
    rw [hfold, mem_ids_foldl_intersection rest L
      (hs L (List.mem_cons_self L rest))
      (fun Y hY => hs Y (List.mem_cons_of_mem L hY)) d]
    constructor
    · intro hcount
      have hall := List.countP_eq_length.mp
        (le_antisymm (List.countP_le_length _) hcount)
      have hall' : ∀ X ∈ L :: rest, d ∈ ids X := by
        intro X hX
        simpa using hall X hX
      exact ⟨hall' L (List.mem_cons_self L rest),
        fun X hX => hall' X (List.mem_cons_of_mem L hX)⟩
    · rintro ⟨h1, h2⟩
      have hlen : (L :: rest).countP (fun X => decide (d ∈ ids X)) =
          (L :: rest).length := by
        apply List.countP_eq_length.mpr
        intro X hX
        rcases List.mem_cons.mp hX with rfl | hX'
        · simpa using h1
        · simpa using h2 X hX'
      omega

/-- Witness for C2: two overlapping posting lists; document 2 is in both,
and is exactly what the 2-of-2 run and the intersection fold agree on. -/
theorem c2_witness :
    (([[⟨1, 1⟩, ⟨2, 1⟩], [⟨2, 2⟩, ⟨3, 1⟩]] : List (List Posting)) ≠ [] ∧
      (∀ L ∈ ([[⟨1, 1⟩, ⟨2, 1⟩], [⟨2, 2⟩, ⟨3, 1⟩]] : List (List Posting)),
        SortedPostings L)) ∧
    (2 ∈ (NOfM.run ([[⟨1, 1⟩, ⟨2, 1⟩], [⟨2, 2⟩, ⟨3, 1⟩]] :
          List (List Posting)).length 4
        (NOfM.mkSlots [[⟨1, 1⟩, ⟨2, 1⟩], [⟨2, 2⟩, ⟨3, 1⟩]])).map Prod.fst ↔
      2 ∈ ids (foldIntersection [[⟨1, 1⟩, ⟨2, 1⟩], [⟨2, 2⟩, ⟨3, 1⟩]])) :=
  ⟨⟨by decide, by decide⟩,
    c2_equiv_fold_intersection [[⟨1, 1⟩, ⟨2, 1⟩], [⟨2, 2⟩, ⟨3, 1⟩]] 4 2
      (by decide) (by decide) (by decide)⟩

/-- Claim C3, counterexample: at `M = 0` (an empty query) the formula of
line 60 gives `N = max(1, min(0, 0)) = 1`, which exceeds `M = 0` — the
claim's "never exceeds M" fails. -/
theorem c3_counterexample : N_of 0 (1/2) = 1 ∧ ¬ N_of 0 (1/2) ≤ 0 := by
  constructor
  · norm_num [N_of]
  · norm_num [N_of]

/-- Claim C3 as amended: `N = max(1, min(M, floor(t·M)))` is always at
least 1, and it never exceeds `M` provided `M ≥ 1` (at `M = 0` it equals
1 > M). -/
theorem c3_threshold_bounds (M : Nat) (t : ℚ) :
    1 ≤ N_of M t ∧ (1 ≤ M → N_of M t ≤ M) :=
  ⟨N_of_pos M t, fun hM => N_of_le t hM⟩

/-- Witness for C3 at `M = 4`, `t = 7/10` (where `N = 2`). -/
theorem c3_witness : 1 ≤ N_of 4 (7/10) ∧ (1 ≤ 4 → N_of 4 (7/10) ≤ 4) :=
  c3_threshold_bounds 4 (7/10)

/-- Claim C4 (supporting theorem; `SimpleSearchEngine.evaluate` itself is a
non-parsing draft, so the property is proved of the spec-modelled loop):
an empty query (no slots) and a query whose terms are all absent from the
index (all slots start empty) yield an empty candidate list — no error, no
output, for any fuel and threshold option. -/
theorem c4_degenerate_empty (fuel M : Nat) (t : ℚ) :
    NOfM.run (N_of 0 t) fuel [] = []
    ∧ NOfM.run (N_of M t) fuel (List.replicate M ((0, []) : NOfM.Slot)) = [] := by
  constructor
  · exact run_eq_nil_of_empty _ fuel [] (N_of_pos 0 t)
      (fun s hs => absurd hs (List.not_mem_nil s))
  · refine run_eq_nil_of_empty _ fuel _ (N_of_pos M t) ?_
    intro s hs
    rw [List.eq_of_mem_replicate hs]

/-- Claim C5: on strictly sorted inputs, `PostingsMerger.intersection`
emits a posting for a document id iff the id appears in both lists, emits
one posting per such id (no duplicates), emits in ascending document-id
order, and its output is a subsequence of each input (each input is
consumed in one forward pass, never rewound — also visible in the
definition, a single structural recursion over both lists). -/
theorem c5_intersection_characterisation (A B : List Posting) (d : Nat)
    (hA : SortedPostings A) (hB : SortedPostings B) :
    (d ∈ ids (PostingsMerger.intersection A B) ↔ d ∈ ids A ∧ d ∈ ids B)
    ∧ (ids (PostingsMerger.intersection A B)).Nodup
    ∧ SortedPostings (PostingsMerger.intersection A B)
    ∧ (PostingsMerger.intersection A B).Sublist A
    ∧ (ids (PostingsMerger.intersection A B)).Sublist (ids B) := by
  refine ⟨mem_ids_intersection hA hB d, ?_, intersection_sorted hA hB, ?_, ?_⟩
  · exact (ids_pairwise (intersection_sorted hA hB)).imp
      (fun h => Nat.ne_of_lt h)
  · rw [intersection_eq_filter A B hA hB]
    exact List.filter_sublist A
  · exact sorted_subset_sublist _ _ (ids_pairwise hB)
      (ids_pairwise (intersection_sorted hA hB))
      (fun x hx => ((mem_ids_intersection hA hB x).mp hx).2)

/-- Witness for C5 on two concrete sorted posting lists sharing ids 2
and 5. -/
theorem c5_witness :
    (SortedPostings [⟨1, 2⟩, ⟨2, 1⟩, ⟨5, 3⟩] ∧
      SortedPostings [⟨2, 4⟩, ⟨3, 1⟩, ⟨5, 9⟩]) ∧
    ((2 ∈ ids (PostingsMerger.intersection [⟨1, 2⟩, ⟨2, 1⟩, ⟨5, 3⟩]
          [⟨2, 4⟩, ⟨3, 1⟩, ⟨5, 9⟩]) ↔
        2 ∈ ids [⟨1, 2⟩, ⟨2, 1⟩, ⟨5, 3⟩] ∧ 2 ∈ ids [⟨2, 4⟩, ⟨3, 1⟩, ⟨5, 9⟩])
      ∧ (ids (PostingsMerger.intersection [⟨1, 2⟩, ⟨2, 1⟩, ⟨5, 3⟩]
          [⟨2, 4⟩, ⟨3, 1⟩, ⟨5, 9⟩])).Nodup
      ∧ SortedPostings (PostingsMerger.intersection [⟨1, 2⟩, ⟨2, 1⟩, ⟨5, 3⟩]
          [⟨2, 4⟩, ⟨3, 1⟩, ⟨5, 9⟩])
      ∧ (PostingsMerger.intersection [⟨1, 2⟩, ⟨2, 1⟩, ⟨5, 3⟩]
          [⟨2, 4⟩, ⟨3, 1⟩, ⟨5, 9⟩]).Sublist [⟨1, 2⟩, ⟨2, 1⟩, ⟨5, 3⟩]
      ∧ (ids (PostingsMerger.intersection [⟨1, 2⟩, ⟨2, 1⟩, ⟨5, 3⟩]
          [⟨2, 4⟩, ⟨3, 1⟩, ⟨5, 9⟩])).Sublist
          (ids [⟨2, 4⟩, ⟨3, 1⟩, ⟨5, 9⟩])) :=
  ⟨⟨by decide, by decide⟩,
    c5_intersection_characterisation [⟨1, 2⟩, ⟨2, 1⟩, ⟨5, 3⟩]
      [⟨2, 4⟩, ⟨3, 1⟩, ⟨5, 9⟩] 2 (by decide) (by decide)⟩

/-- Claim C6: on strictly sorted inputs, `PostingsMerger.difference` emits
exactly the postings of A whose document id does not appear in B (it equals
that filter of A), in ascending document-id order, and its output is a
subsequence of A — one forward pass over both inputs, as the single
structural recursion of the definition also shows. -/
theorem c6_difference_characterisation (A B : List Posting)
    (hA : SortedPostings A) (hB : SortedPostings B) :
    (PostingsMerger.difference A B =
      A.filter (fun p => p.document_id ∉ ids B))
    ∧ SortedPostings (PostingsMerger.difference A B)
    ∧ (PostingsMerger.difference A B).Sublist A := by
  have hfe := difference_eq_filter A B hA hB
  refine ⟨hfe, ?_, ?_⟩
  · rw [hfe]; exact sortedPostings_filter _ hA
  · rw [hfe]; exact List.filter_sublist A

/-- Witness for C6 on two concrete sorted posting lists. -/
theorem c6_witness :
    (SortedPostings [⟨1, 2⟩, ⟨2, 1⟩, ⟨5, 3⟩] ∧
      SortedPostings [⟨2, 4⟩, ⟨3, 1⟩, ⟨5, 9⟩]) ∧
    ((PostingsMerger.difference [⟨1, 2⟩, ⟨2, 1⟩, ⟨5, 3⟩]
        [⟨2, 4⟩, ⟨3, 1⟩, ⟨5, 9⟩] =
      List.filter (fun p => p.document_id ∉ ids [⟨2, 4⟩, ⟨3, 1⟩, ⟨5, 9⟩])
        [⟨1, 2⟩, ⟨2, 1⟩, ⟨5, 3⟩])
      ∧ SortedPostings (PostingsMerger.difference [⟨1, 2⟩, ⟨2, 1⟩, ⟨5, 3⟩]
          [⟨2, 4⟩, ⟨3, 1⟩, ⟨5, 9⟩])
      ∧ (PostingsMerger.difference [⟨1, 2⟩, ⟨2, 1⟩, ⟨5, 3⟩]
          [⟨2, 4⟩, ⟨3, 1⟩, ⟨5, 9⟩]).Sublist [⟨1, 2⟩, ⟨2, 1⟩, ⟨5, 3⟩]) :=
  ⟨⟨by decide, by decide⟩,
    c6_difference_characterisation [⟨1, 2⟩, ⟨2, 1⟩, ⟨5, 3⟩]
      [⟨2, 4⟩, ⟨3, 1⟩, ⟨5, 9⟩] (by decide) (by decide)⟩

/-- Claim C7: within one reset/update/evaluate episode of `BetterRanker`,
an `update` whose posting carries the document id of the last reset adds
`log(1 + tf) · idf · multiplicity` to the accumulated score, where the idf
factor is `log(N_docs / df)` when `df > 0` and `0` when `df = 0`; and
`evaluate` returns the accumulated sum combined additively with the
document's static quality score (`0` when the field is absent), each side
weighted by `1`. -/
theorem c7_tf_idf_accumulation (log : ℚ → ℚ) (index : InvertedIndexModel)
    (corpus : CorpusModel) (r : BetterRanker) (term : String)
    (multiplicity : Nat) (posting : Posting) (s : ℚ) (d : Nat)
    (h : r.document_id = some posting.document_id) :
    BetterRanker.update log index corpus r term multiplicity posting =
      Except.ok
        ⟨r.score + log (1 + (posting.term_frequency : ℚ)) *
          (if 0 < index.document_frequency term then
            log ((corpus.size : ℚ) / (index.document_frequency term : ℚ))
          else 0) * (multiplicity : ℚ), r.document_id⟩
    ∧ BetterRanker.evaluate corpus ⟨s, some d⟩ =
        some (1 * s + 1 * ((corpus.static_quality_score d).getD 0)) := by
  constructor
  · unfold BetterRanker.update
    rw [if_pos h]
  · unfold BetterRanker.evaluate
    cases hopt : corpus.static_quality_score d with
    | none =>
      simp [hopt, BetterRanker.dynamic_score_weight,
        BetterRanker.static_score_weight, BetterRanker.static_score_default_value]
    | some v =>
      by_cases hv : v = 0
      · simp [hopt, hv, BetterRanker.dynamic_score_weight,
          BetterRanker.static_score_weight,
          BetterRanker.static_score_default_value]
      · simp [hopt, hv, BetterRanker.dynamic_score_weight,
          BetterRanker.static_score_weight,
          BetterRanker.static_score_default_value]

/-- Witness for C7: with `log` instantiated to the identity, corpus size
10, document frequency 2, term frequency 3 and query multiplicity 2, the
update adds `(1+3) · (10/2) · 2 = 40`, and `evaluate` on a document without
a static score returns the accumulated score unchanged. -/
theorem c7_witness :
    ((⟨0, some 5⟩ : BetterRanker).document_id =
        some (⟨5, 3⟩ : Posting).document_id) ∧
    BetterRanker.update (fun x => x) ⟨fun _ => 2⟩ ⟨10, fun _ => none⟩
        ⟨0, some 5⟩ "apple" 2 ⟨5, 3⟩ = Except.ok ⟨40, some 5⟩ ∧
    BetterRanker.evaluate ⟨10, fun _ => none⟩ ⟨7, some 5⟩ = some 7 := by
  have h := c7_tf_idf_accumulation (fun x => x) ⟨fun _ => 2⟩
    ⟨10, fun _ => none⟩ ⟨0, some 5⟩ "apple" 2 ⟨5, 3⟩ 7 5 rfl
  refine ⟨rfl, ?_, ?_⟩
  · rw [h.1]
    norm_num
  · rw [h.2]
    norm_num

/-- Claim C8: an `update` whose posting's document id differs from the id
of the most recent reset fails fast with an error and never returns an
updated state. -/
theorem c8_wrong_document_errors (log : ℚ → ℚ) (index : InvertedIndexModel)
    (corpus : CorpusModel) (r : BetterRanker) (term : String)
    (multiplicity : Nat) (posting : Posting)
    (h : r.document_id ≠ some posting.document_id) :
    BetterRanker.update log index corpus r term multiplicity posting =
      Except.error "AssertionError" := by
  unfold BetterRanker.update
  rw [if_neg h]

/-- Witness for C8: the ranker was reset on document 1 but the posting is
for document 2. -/
theorem c8_witness :
    ((⟨0, some 1⟩ : BetterRanker).document_id ≠
        some (⟨2, 1⟩ : Posting).document_id) ∧
    BetterRanker.update (fun x => x) ⟨fun _ => 0⟩ ⟨0, fun _ => none⟩
        ⟨0, some 1⟩ "x" 1 ⟨2, 1⟩ = Except.error "AssertionError" :=
  ⟨by decide, c8_wrong_document_errors (fun x => x) ⟨fun _ => 0⟩
    ⟨0, fun _ => none⟩ ⟨0, some 1⟩ "x" 1 ⟨2, 1⟩ (by decide)⟩

/-- Claim C9 (supporting theorem; `SimpleSearchEngine.evaluate` itself is a
non-parsing draft, so the property is proved of the spec-modelled loop):
for a fixed frontier, raising the match threshold never adds a document to
the matched set — every id matched at threshold `t2 ≥ t1` is matched at
`t1`. -/
theorem c9_threshold_monotone (slots : List NOfM.Slot) (fuel d : Nat)
    (t1 t2 : ℚ) (h12 : t1 ≤ t2) (hs : NOfM.SortedSlots slots)
    (hf : NOfM.totalSize slots ≤ fuel)
    (hd : d ∈ (NOfM.run (N_of slots.length t2) fuel slots).map Prod.fst) :
    d ∈ (NOfM.run (N_of slots.length t1) fuel slots).map Prod.fst := by
  rw [run_fst_mem fuel _ slots (N_of_pos _ t2) hs hf d] at hd
  rw [run_fst_mem fuel _ slots (N_of_pos _ t1) hs hf d]
  exact le_trans (N_of_mono slots.length h12) hd

/-- Witness for C9: document 1 is matched at threshold 1 (N = 2-of-2), so
it is also matched at threshold 1/2 (N = 1). -/
theorem c9_witness :
    ((1 : ℚ)/2 ≤ 1) ∧
    1 ∈ (NOfM.run (N_of 2 (1/2)) 2
        ([(0, [1]), (1, [1])] : List NOfM.Slot)).map Prod.fst := by
  refine ⟨by norm_num, ?_⟩
  refine c9_threshold_monotone [(0, [1]), (1, [1])] 2 1 (1/2) 1
    (by norm_num) (by decide) (by decide) ?_
  show 1 ∈ (NOfM.run (N_of 2 1) 2
    ([(0, [1]), (1, [1])] : List NOfM.Slot)).map Prod.fst
  rw [show N_of 2 1 = 2 from by norm_num [N_of]]
  decide

/-- Claim C10: when the two current input postings have equal document id,
`PostingsMerger.intersection` and `PostingsMerger.union` yield the posting
object from the first (left) iterator unmodified; consequently every
posting emitted by the intersection is a posting of the left list, and
every union output whose document id occurs in the left list is the left
list's posting — so the term frequency observed downstream on overlapping
ids is always the left operand's. -/
theorem c10_left_operand_preference (a b : Posting) (as bs A B : List Posting)
    (p : Posting) (heq : a.document_id = b.document_id)
    (hA : SortedPostings A) (hB : SortedPostings B) :
    (PostingsMerger.intersection (a :: as) (b :: bs) =
      a :: PostingsMerger.intersection as bs)
    ∧ (PostingsMerger.union (a :: as) (b :: bs) =
      a :: PostingsMerger.union as bs)
    ∧ (p ∈ PostingsMerger.intersection A B → p ∈ A)
    ∧ (p ∈ PostingsMerger.union A B → p.document_id ∈ ids A → p ∈ A) := by
  refine ⟨?_, ?_, ?_, ?_⟩
  · rw [PostingsMerger.intersection, if_neg (by omega), if_neg (by omega)]
  · rw [PostingsMerger.union, if_neg (by omega), if_neg (by omega)]
  · intro hp
    rw [intersection_eq_filter A B hA hB] at hp
    exact List.mem_of_mem_filter hp
  · intro hp hid
    rcases union_mem_cases A B hA hB p hp with h | ⟨_, hni⟩
    · exact h
    · exact absurd hid hni

/-- Witness for C10 on concrete postings: ids 4 = 4 at the heads, and the
posting with id 2 inside concrete sorted lists. -/
theorem c10_witness :
    ((⟨4, 1⟩ : Posting).document_id = (⟨4, 7⟩ : Posting).document_id ∧
      SortedPostings [⟨1, 2⟩, ⟨2, 1⟩, ⟨5, 3⟩] ∧
      SortedPostings [⟨2, 4⟩, ⟨3, 1⟩, ⟨5, 9⟩]) ∧
    ((PostingsMerger.intersection (⟨4, 1⟩ :: [⟨6, 1⟩]) (⟨4, 7⟩ :: [⟨5, 2⟩]) =
        ⟨4, 1⟩ :: PostingsMerger.intersection [⟨6, 1⟩] [⟨5, 2⟩])
      ∧ (PostingsMerger.union (⟨4, 1⟩ :: [⟨6, 1⟩]) (⟨4, 7⟩ :: [⟨5, 2⟩]) =
        ⟨4, 1⟩ :: PostingsMerger.union [⟨6, 1⟩] [⟨5, 2⟩])
      ∧ ((⟨2, 1⟩ : Posting) ∈ PostingsMerger.intersection
          [⟨1, 2⟩, ⟨2, 1⟩, ⟨5, 3⟩] [⟨2, 4⟩, ⟨3, 1⟩, ⟨5, 9⟩] →
          (⟨2, 1⟩ : Posting) ∈ [⟨1, 2⟩, ⟨2, 1⟩, ⟨5, 3⟩])
      ∧ ((⟨2, 1⟩ : Posting) ∈ PostingsMerger.union
          [⟨1, 2⟩, ⟨2, 1⟩, ⟨5, 3⟩] [⟨2, 4⟩, ⟨3, 1⟩, ⟨5, 9⟩] →
          (⟨2, 1⟩ : Posting).document_id ∈ ids [⟨1, 2⟩, ⟨2, 1⟩, ⟨5, 3⟩] →
          (⟨2, 1⟩ : Posting) ∈ [⟨1, 2⟩, ⟨2, 1⟩, ⟨5, 3⟩])) :=
  ⟨⟨by decide, by decide, by decide⟩,
    c10_left_operand_preference ⟨4, 1⟩ ⟨4, 7⟩ [⟨6, 1⟩] [⟨5, 2⟩]
      [⟨1, 2⟩, ⟨2, 1⟩, ⟨5, 3⟩] [⟨2, 4⟩, ⟨3, 1⟩, ⟨5, 9⟩] ⟨2, 1⟩
      (by decide) (by decide) (by decide)⟩
